import Mathlib

/-!
Verification of the Prove-It Context/Storage subsystem
(`packages/proveit/_core_/context.py`) against its specification.

The Python code is shallowly embedded: on-disk state (per-name statement
slots, the ordered ledger file, the commons table, reference counts) becomes
explicit record state threaded through pure Lean functions; Python exceptions
become `Except` values.  Association lists model Python dictionaries and
directory listings (keys unique in well-formed states; lookups take the first
match, as `os.listdir`/`dict` would present a single entry).

The `Storage` class itself is not part of the provided sources (only
`context.py`, which imports it, is).  Definitions for its primitives are
modelled from the specification and carry a `Modelled from the spec:` marker.
Everything else is translated from `context.py`.
-/

namespace ProveIt

/-- Association-list lookup, modelling Python `dict` indexing / `in` tests
    (first matching key wins; in well-formed states keys are unique). -/
def alookup {α : Type} (l : List (String × α)) (k : String) : Option α :=
  match l with
  | [] => none
  | (k', v) :: rest => if k' = k then some v else alookup rest k

/-- Association-list update, modelling `d[k] = v` (replace the existing
    binding, or append a fresh one). -/
def aupdate {α : Type} (l : List (String × α)) (k : String) (v : α) :
    List (String × α) :=
  match l with
  | [] => [(k, v)]
  | (k', v') :: rest =>
    if k' = k then (k, v) :: rest else (k', v') :: aupdate rest k v

/-- Association-list deletion of every binding of a key, modelling removal of
    a per-name slot directory (`shutil.rmtree` on the slot). -/
def aerase {α : Type} (l : List (String × α)) (k : String) :
    List (String × α) :=
  l.filter (fun p => !(decide (p.1 = k)))

theorem alookup_aupdate_self {α : Type} (l : List (String × α)) (k : String)
    (v : α) : alookup (aupdate l k v) k = some v := by
  induction l with
  | nil => simp [aupdate, alookup]
  | cons p rest ih =>
    by_cases h : p.1 = k
    · simp [aupdate, h, alookup]
    · simp [aupdate, h, alookup, ih]

theorem alookup_aupdate_ne {α : Type} (l : List (String × α)) (k m : String)
    (v : α) (hne : m ≠ k) : alookup (aupdate l k v) m = alookup l m := by
  have hkm : ¬ k = m := fun hh => hne hh.symm
  induction l with
  | nil => simp [aupdate, alookup, hkm]
  | cons p rest ih =>
    by_cases h : p.1 = k
    · have hpm : ¬ p.1 = m := by rw [h]; exact hkm
      simp [aupdate, h, alookup, hkm, hpm]
    · simp only [aupdate, h, if_false, alookup]
      by_cases h2 : p.1 = m
      · simp [h2]
      · simp [h2, ih]

theorem alookup_aerase_self {α : Type} (l : List (String × α)) (k : String) :
    alookup (aerase l k) k = none := by
  induction l with
  | nil => simp [aerase, alookup]
  | cons p rest ih =>
    by_cases h : p.1 = k
    · simpa [aerase, h] using ih
    · simpa [aerase, alookup, h] using ih

theorem alookup_aerase_ne {α : Type} (l : List (String × α)) (k m : String)
    (hne : m ≠ k) : alookup (aerase l k) m = alookup l m := by
  induction l with
  | nil => simp [aerase, alookup]
  | cons p rest ih =>
    by_cases h : p.1 = k
    · have hstep : aerase (p :: rest) k = aerase rest k := by
        simp [aerase, List.filter, h]
      rw [hstep, ih]
      have hpm : ¬ p.1 = m := by rw [h]; exact fun hh => hne hh.symm
      simp [alookup, hpm]
    · have hstep : aerase (p :: rest) k = p :: aerase rest k := by
        simp [aerase, List.filter, h]
      rw [hstep]
      by_cases h2 : p.1 = m
      · simp [alookup, h2]
      · simp [alookup, h2, ih]

theorem mem_aupdate {α : Type} {l : List (String × α)} {k : String} {v : α}
    {p : String × α} (hp : p ∈ aupdate l k v) : p ∈ l ∨ p = (k, v) := by
  induction l with
  | nil => simpa [aupdate] using hp
  | cons q rest ih =>
    by_cases h : q.1 = k
    · simp only [aupdate, h, if_true, List.mem_cons] at hp
      rcases hp with hp | hp
      · right; exact hp
      · left; exact List.mem_cons_of_mem _ hp
    · simp only [aupdate, h, if_false, List.mem_cons] at hp
      rcases hp with hp | hp
      · left; rw [hp]; exact List.mem_cons_self _ _
      · rcases ih hp with hh | hh
        · left; exact List.mem_cons_of_mem _ hh
        · right; exact hh

theorem mem_aerase {α : Type} {l : List (String × α)} {k : String}
    {p : String × α} (hp : p ∈ aerase l k) : p ∈ l ∧ p.1 ≠ k := by
  have := List.mem_filter.mp hp
  refine ⟨this.1, ?_⟩
  have h2 := this.2
  simpa using h2

/-- Errors of the subsystem.  `context.py` raises `ContextException` both for
    a corrupted `__pv_it` directory and for a directory missing its
    `__init__.py`; the specification's taxonomy splits these into
    `CorruptStoreError` and `StructuralError`, so the embedding keeps distinct
    constructors (distinguished in the code by their messages).  `keyError` is
    Python's `KeyError` (absent-name lookup), `notFound` the specification's
    `NotFoundError` for storage hashes, and `valueError` Python's
    `ValueError` from unpacking `line.split()` into two names. -/
inductive CtxErr where
  | corrupt
  | structural
  | keyError
  | notFound
  | valueError
  deriving DecidableEq, Repr

/-- Content-store state: association list from expression hash (storage id)
    to its reference count; presence of a binding models a stored entry. -/
abbrev Store := List (String × Nat)

/-- Modelled from the spec (Storage class absent from src):
    `Storage._proveItStorageId(expr)` computes the deterministic structural
    hash and, if no entry exists for it, persists the encoding with reference
    count 0.  Expressions are identified with their hash strings here (the
    expression object model is out of scope; hashing is deterministic). -/
def proveItStorageId (st : Store) (h : String) : Store :=
  if (alookup st h).isSome then st else st ++ [(h, 0)]

/-- Modelled from the spec (Storage class absent from src):
    `Storage._addReference(hash)` increments the reference count by 1 and
    fails with `NotFoundError` if the hash has no entry. -/
def addReference (st : Store) (h : String) : Except CtxErr Store :=
  match alookup st h with
  | none => .error .notFound
  | some c => .ok (aupdate st h (c + 1))

/-- Modelled from the spec (Storage class absent from src):
    `Storage._removeReference(hash, removingSpecialExpr)` decrements the
    reference count by 1 with a floor of 0 and never physically deletes the
    entry; the flag only marks that a named special-expression slot was
    released (bookkeeping, not different count semantics). -/
def removeReference (st : Store) (h : String) (_removingSpecialExpr : Bool) :
    Store :=
  match alookup st h with
  | none => st
  | some c => aupdate st h (c - 1)

theorem alookup_append_left {α : Type} (l l2 : List (String × α)) (h : String)
    (hs : (alookup l h).isSome) : alookup (l ++ l2) h = alookup l h := by
  induction l with
  | nil => simp [alookup] at hs
  | cons p rest ih =>
    by_cases hp : p.1 = h
    · simp [alookup, hp]
    · simp only [alookup, hp, if_false] at hs ⊢
      exact ih hs

theorem alookup_append_right {α : Type} (l l2 : List (String × α)) (h : String)
    (hs : alookup l h = none) : alookup (l ++ l2) h = alookup l2 h := by
  induction l with
  | nil => simp [alookup]
  | cons p rest ih =>
    by_cases hp : p.1 = h
    · simp [alookup, hp] at hs
    · simp only [alookup, hp, if_false] at hs
      simp only [List.cons_append, alookup, hp, if_false]
      exact ih hs

theorem alookup_proveItStorageId_of_isSome (st : Store) (k h : String)
    (hs : (alookup st h).isSome) :
    alookup (proveItStorageId st k) h = alookup st h := by
  unfold proveItStorageId
  by_cases hk : (alookup st k).isSome = true
  · rw [if_pos hk]
  · rw [if_neg hk]
    exact alookup_append_left _ _ _ hs

theorem isSome_alookup_proveItStorageId_self (st : Store) (h : String) :
    (alookup (proveItStorageId st h) h).isSome := by
  unfold proveItStorageId
  by_cases hk : (alookup st h).isSome = true
  · rw [if_pos hk]; exact hk
  · rw [if_neg hk]
    have hn : alookup st h = none := by
      cases hv : alookup st h with
      | none => rfl
      | some v => rw [hv] at hk; simp at hk
    rw [alookup_append_right _ _ _ hn]
    simp [alookup]

theorem isSome_alookup_aupdate {α : Type} (l : List (String × α))
    (k h : String) (v : α) (hs : (alookup l h).isSome) :
    (alookup (aupdate l k v) h).isSome := by
  by_cases hk : h = k
  · rw [hk, alookup_aupdate_self]; simp
  · rw [alookup_aupdate_ne _ _ _ _ hk]; exact hs

theorem isSome_alookup_removeReference (st : Store) (k h : String) (b : Bool)
    (hs : (alookup st h).isSome) :
    (alookup (removeReference st k b) h).isSome := by
  unfold removeReference
  cases hc : alookup st k with
  | none => exact hs
  | some c => exact isSome_alookup_aupdate _ _ _ _ hs

theorem alookup_removeReference_ne (st : Store) (k h : String) (b : Bool)
    (hne : h ≠ k) : alookup (removeReference st k b) h = alookup st h := by
  unfold removeReference
  cases hc : alookup st k with
  | none => rfl
  | some c => exact alookup_aupdate_ne _ _ _ _ hne

/-- Claim C9: for a stored hash with count `c`, `addReference` then
    `removeReference` restores the count to `c`; `addReference` on an absent
    hash fails with `NotFoundError`; `removeReference` decrements with a
    floor of 0 (natural subtraction) and never deletes the entry, even at
    count 0. -/
theorem storage_reference_symmetry (st : Store) (h : String) (c : Nat) :
    (alookup st h = some c →
      addReference st h = .ok (aupdate st h (c + 1)) ∧
      ∀ b : Bool,
        alookup (removeReference (aupdate st h (c + 1)) h b) h = some c) ∧
    (alookup st h = none → addReference st h = .error .notFound) ∧
    (∀ b : Bool,
      alookup (removeReference st h b) h = (alookup st h).map (· - 1)) ∧
    (∀ (b : Bool) (k : String), (alookup st k).isSome →
      (alookup (removeReference st h b) k).isSome) := by
  refine ⟨?_, ?_, ?_, ?_⟩
  · intro hc
    constructor
    · simp [addReference, hc]
    · intro b
      have h1 : alookup (aupdate st h (c + 1)) h = some (c + 1) :=
        alookup_aupdate_self _ _ _
      simp [removeReference, h1, alookup_aupdate_self]
  · intro hc
    simp [addReference, hc]
  · intro b
    cases hc : alookup st h with
    | none => simp [removeReference, hc]
    | some c' => simp [removeReference, hc, alookup_aupdate_self]
  · intro b k hk
    exact isSome_alookup_removeReference _ _ _ _ hk

/-- Claim C9 witness: concrete store with hash "h1" at count 2. -/
theorem storage_reference_symmetry_witness :
    addReference [("h1", 2)] "h1" = .ok [("h1", 3)] ∧
    alookup (removeReference [("h1", 3)] "h1" true) "h1" = some 2 ∧
    addReference [] "h0" = .error .notFound := by
  have h := storage_reference_symmetry [("h1", 2)] "h1" 2
  have h0 := storage_reference_symmetry [] "h0" 0
  refine ⟨?_, ?_, ?_⟩
  · have := (h.1 (by rfl)).1
    simpa [aupdate] using this
  · have := (h.1 (by rfl)).2 true
    simpa [aupdate] using this
  · exact h0.2.1 (by rfl)

/-- Per-(context, kind) statement-ledger state, the on-disk data touched by
    `Context._setSpecialStatements` for one `kind` ('axiom' or 'theorem'; the
    two kinds use disjoint paths `<kind>s/` and `<kind>s.txt`, so each is an
    independent copy of this state).
    `slots` models the `<kind>s/<name>/` directories in `os.listdir` order:
    a pair `(name, some h)` is a slot directory whose `expr.pv_it` file holds
    hash `h`; `(name, none)` is a slot directory missing that file.
    `ledger` models the lines of `<kind>s.txt`, one name per line, in file
    order.  `store` is the context's content store. -/
structure LedgerState where
  slots : List (String × Option String)
  ledger : List String
  store : Store
  deriving DecidableEq, Repr

/-- Read phase of `Context._setSpecialStatements`: walk the slot directories
    and collect `previousDefIds`; a slot whose `expr.pv_it` cannot be opened
    raises `ContextException('Corrupted __pv_it directory: ...')`. -/
def readPrev : List (String × Option String) → Except CtxErr (List (String × String))
  | [] => .ok []
  | (_, none) :: _ => .error .corrupt
  | (n, some c) :: rest =>
    match readPrev rest with
    | .error e => .error e
    | .ok prev => .ok ((n, c) :: prev)

/-- The `toRemove` list of `Context._setSpecialStatements`: slot names found
    on disk whose name is no longer in `definitions` (in listing order). -/
def toRemoveList (D : String → Option String)
    (slots : List (String × Option String)) : List String :=
  (slots.filter (fun p => (D p.1).isNone)).map (·.1)

/-- Accumulator/result of the write loop of `Context._setSpecialStatements`:
    slot directories, content store, the lines written to `<kind>s.txt`, and
    the names reported as added ('Adding ...') or modified ('Modifying ...'). -/
structure WLOut where
  slots : List (String × Option String)
  store : Store
  lines : List String
  added : List String
  modified : List String
  deriving DecidableEq, Repr

/-- Write loop of `Context._setSpecialStatements`: for each caller-supplied
    name in order, write the name to `<kind>s.txt`, fetch the definition
    (Python `KeyError` if absent), store it (`_proveItStorageId`), and if its
    hash differs from the previously recorded one, release the old slot's
    reference (`StoredSpecialStmt.remove(keepPath=True)`, modelled from the
    spec: release the hash currently recorded in the slot, retaining the
    directory), overwrite the slot's `expr.pv_it` and add a reference.
    An unchanged `(name, hash)` pair is skipped (`continue`).
    Recording in `Expression.contexts` / `specialExpressions` (in-memory
    display bookkeeping) is not modelled. -/
def writeLoop (D : String → Option String) (prev : List (String × String)) :
    List String → WLOut → Except CtxErr WLOut
  | [], w => .ok w
  | name :: rest, w =>
    match D name with
    | none => .error .keyError
    | some i =>
      let store1 := proveItStorageId w.store i
      let lines1 := w.lines ++ [name]
      match alookup prev name with
      | some pid =>
        if pid = i then
          writeLoop D prev rest
            { w with store := store1, lines := lines1 }
        else
          let store2 :=
            match (alookup w.slots name).join with
            | some old => removeReference store1 old true
            | none => store1
          let slots2 := aupdate w.slots name (some i)
          match addReference store2 i with
          | .error e => .error e
          | .ok store3 =>
            writeLoop D prev rest
              { slots := slots2, store := store3, lines := lines1,
                added := w.added, modified := w.modified ++ [name] }
      | none =>
        let slots2 := aupdate w.slots name (some i)
        match addReference store1 i with
        | .error e => .error e
        | .ok store3 =>
          writeLoop D prev rest
            { slots := slots2, store := store3, lines := lines1,
              added := w.added ++ [name], modified := w.modified }

/-- Removal phase of `Context._setSpecialStatements`: each special statement
    that no longer exists is fully removed (`StoredSpecialStmt.remove()`,
    modelled from the spec: delete the slot directory and release the
    reference of the hash it recorded). -/
def removeLoop : List String → List (String × Option String) → Store →
    List (String × Option String) × Store
  | [], slots, store => (slots, store)
  | name :: rest, slots, store =>
    let store1 :=
      match (alookup slots name).join with
      | some old => removeReference store old true
      | none => store
    removeLoop rest (aerase slots name) store1

/-- Change report of one reconcile call: the names printed as added,
    modified, and removed by `Context._setSpecialStatements`. -/
structure ChangeReport where
  added : List String
  modified : List String
  removed : List String
  deriving DecidableEq, Repr

/-- Embeds `Context._setSpecialStatements(names, definitions, kind)`: read the
    previous definition ids from the slot directories (corruption aborts),
    rewrite `<kind>s.txt` in the caller-supplied order while diffing against
    the previous ids, then remove the statements that no longer exist.
    Definitions map names to storage ids (the expression layer is out of
    scope; `_proveItStorageId` is deterministic on structurally-equal
    expressions).  The ledger file write is modelled atomically with the
    successful run (the spec records that a crash mid-reconcile is not
    transactional; error paths here return the pre-call state). -/
def setSpecialStatements (st : LedgerState) (names : List String)
    (D : String → Option String) : Except CtxErr (LedgerState × ChangeReport) :=
  match readPrev st.slots with
  | .error e => .error e
  | .ok prev =>
    let toRem := toRemoveList D st.slots
    match writeLoop D prev names ⟨st.slots, st.store, [], [], []⟩ with
    | .error e => .error e
    | .ok w =>
      let r := removeLoop toRem w.slots w.store
      .ok (⟨r.1, w.lines, r.2⟩, ⟨w.added, w.modified, toRem⟩)

/-- Embeds `Context._getSpecialStatementExpr(kind, name)`: open
    `<kind>s/<name>/expr.pv_it` and deserialize the recorded id; any
    `IOError` (absent slot directory, or slot directory missing the file) is
    caught and re-raised as `KeyError("<kind> of name '<name>' not found")`.
    Deserialization (`storage.makeExpression`) is out of scope; the recorded
    id is returned. -/
def getSpecialStatementExpr (st : LedgerState) (name : String) :
    Except CtxErr String :=
  match (alookup st.slots name).join with
  | some i => .ok i
  | none => .error .keyError

theorem mem_aerase_iff {α : Type} {l : List (String × α)} {k : String}
    {p : String × α} : p ∈ aerase l k ↔ p ∈ l ∧ p.1 ≠ k := by
  constructor
  · exact mem_aerase
  · intro ⟨h1, h2⟩
    exact List.mem_filter.mpr ⟨h1, by simpa using h2⟩

theorem readPrev_lookup {slots : List (String × Option String)}
    {prev : List (String × String)} (h : readPrev slots = .ok prev) :
    ∀ n, alookup prev n = (alookup slots n).join := by
  induction slots generalizing prev with
  | nil =>
    simp only [readPrev] at h
    cases h
    intro n
    simp [alookup]
  | cons p rest ih =>
    intro n
    match p, h with
    | (m, some c), h =>
      simp only [readPrev] at h
      cases hr : readPrev rest with
      | error e => rw [hr] at h; cases h
      | ok prevR =>
        rw [hr] at h
        cases h
        by_cases hm : m = n
        · simp [alookup, hm]
        · simp only [alookup, hm, if_false]
          exact ih hr n

theorem readPrev_allSome {slots : List (String × Option String)}
    {prev : List (String × String)} (h : readPrev slots = .ok prev) :
    ∀ p ∈ slots, p.2.isSome := by
  induction slots generalizing prev with
  | nil => intro p hp; cases hp
  | cons q rest ih =>
    intro p hp
    match q, h with
    | (m, some c), h =>
      simp only [readPrev] at h
      cases hr : readPrev rest with
      | error e => rw [hr] at h; cases h
      | ok prevR =>
        rcases List.mem_cons.mp hp with hp | hp
        · simp [hp]
        · exact ih hr p hp

theorem readPrev_ok_of_allSome {slots : List (String × Option String)}
    (h : ∀ p ∈ slots, p.2.isSome) : ∃ prev, readPrev slots = .ok prev := by
  induction slots with
  | nil => exact ⟨[], rfl⟩
  | cons q rest ih =>
    have hq := h q (List.mem_cons_self _ _)
    match q, hq with
    | (m, some c), _ =>
      obtain ⟨prevR, hr⟩ := ih (fun p hp => h p (List.mem_cons_of_mem _ hp))
      exact ⟨(m, c) :: prevR, by simp only [readPrev, hr]⟩

theorem readPrev_error_of_missing {slots : List (String × Option String)}
    {n : String} (h : (n, none) ∈ slots) :
    readPrev slots = .error .corrupt := by
  induction slots with
  | nil => cases h
  | cons q rest ih =>
    rcases List.mem_cons.mp h with hq | hq
    · rw [← hq]
      rfl
    · match q with
      | (m, none) => rfl
      | (m, some c) =>
        simp only [readPrev, ih hq]

theorem mem_toRemoveList_isNone {D : String → Option String}
    {slots : List (String × Option String)} {n : String}
    (h : n ∈ toRemoveList D slots) : (D n).isNone := by
  unfold toRemoveList at h
  obtain ⟨p, hp, hpn⟩ := List.mem_map.mp h
  rw [← hpn]
  exact (List.mem_filter.mp hp).2

theorem mem_toRemoveList_of {D : String → Option String}
    {slots : List (String × Option String)} {p : String × Option String}
    (hp : p ∈ slots) (hD : (D p.1).isNone) : p.1 ∈ toRemoveList D slots := by
  unfold toRemoveList
  exact List.mem_map.mpr ⟨p, List.mem_filter.mpr ⟨hp, hD⟩, rfl⟩

theorem toRemoveList_nil {D : String → Option String}
    {slots : List (String × Option String)}
    (h : ∀ p ∈ slots, (D p.1).isSome) : toRemoveList D slots = [] := by
  unfold toRemoveList
  rw [List.filter_eq_nil_iff.mpr]
  · rfl
  · intro p hp
    have := h p hp
    cases hD : D p.1 with
    | none => rw [hD] at this; cases this
    | some v => simp [hD]

theorem removeLoop_mem {L : List String}
    {slots : List (String × Option String)} {store : Store}
    {p : String × Option String} :
    p ∈ (removeLoop L slots store).1 ↔ p ∈ slots ∧ p.1 ∉ L := by
  induction L generalizing slots store with
  | nil => simp [removeLoop]
  | cons name rest ih =>
    simp only [removeLoop]
    rw [ih]
    rw [mem_aerase_iff]
    constructor
    · intro ⟨⟨h1, h2⟩, h3⟩
      exact ⟨h1, by simp [h2, h3]⟩
    · intro ⟨h1, h2⟩
      simp only [List.mem_cons, not_or] at h2
      exact ⟨⟨h1, h2.1⟩, h2.2⟩

theorem removeLoop_lookup {L : List String}
    {slots : List (String × Option String)} {store : Store} {n : String}
    (hn : n ∉ L) :
    alookup (removeLoop L slots store).1 n = alookup slots n := by
  induction L generalizing slots store with
  | nil => rfl
  | cons name rest ih =>
    simp only [List.mem_cons, not_or] at hn
    simp only [removeLoop]
    rw [ih hn.2]
    exact alookup_aerase_ne _ _ _ hn.1

theorem removeLoop_store_isSome {L : List String}
    {slots : List (String × Option String)} {store : Store} {h : String}
    (hs : (alookup store h).isSome) :
    (alookup (removeLoop L slots store).2 h).isSome := by
  induction L generalizing slots store with
  | nil => exact hs
  | cons name rest ih =>
    simp only [removeLoop]
    apply ih
    cases hj : (alookup slots name).join with
    | none => simpa [hj] using hs
    | some old =>
      simp only [hj]
      exact isSome_alookup_removeReference _ _ _ _ hs

theorem proveItStorageId_eq_of_isSome {st : Store} {h : String}
    (hs : (alookup st h).isSome) : proveItStorageId st h = st := by
  unfold proveItStorageId
  rw [if_pos hs]

theorem writeLoop_lines {D : String → Option String}
    {prev : List (String × String)} {ns : List String} {w w' : WLOut}
    (h : writeLoop D prev ns w = .ok w') : w'.lines = w.lines ++ ns := by
  induction ns generalizing w with
  | nil =>
    simp only [writeLoop] at h
    cases h
    simp
  | cons name rest ih =>
    simp only [writeLoop] at h
    cases hD : D name with
    | none => rw [hD] at h; cases h
    | some i =>
      rw [hD] at h
      simp only at h
      cases hP : alookup prev name with
      | some pid =>
        rw [hP] at h
        simp only at h
        by_cases hpi : pid = i
        · rw [if_pos hpi] at h
          have := ih h
          simpa using this
        · rw [if_neg hpi] at h
          cases hA : addReference
              (match (alookup w.slots name).join with
               | some old => removeReference (proveItStorageId w.store i) old true
               | none => proveItStorageId w.store i) i with
          | error e => rw [hA] at h; cases h
          | ok store3 =>
            rw [hA] at h
            have := ih h
            simpa using this
      | none =>
        rw [hP] at h
        simp only at h
        cases hA : addReference (proveItStorageId w.store i) i with
        | error e => rw [hA] at h; cases h
        | ok store3 =>
          rw [hA] at h
          have := ih h
          simpa using this

theorem writeLoop_cons_cases {D : String → Option String}
    {prev : List (String × String)} {name : String} {rest : List String}
    {w w' : WLOut} (h : writeLoop D prev (name :: rest) w = .ok w') :
    ∃ i, D name = some i ∧
      ((alookup prev name = some i ∧
        writeLoop D prev rest
          { w with store := proveItStorageId w.store i,
                   lines := w.lines ++ [name] } = .ok w') ∨
       (∃ pid store3, alookup prev name = some pid ∧ pid ≠ i ∧
        addReference
          (match (alookup w.slots name).join with
           | some old => removeReference (proveItStorageId w.store i) old true
           | none => proveItStorageId w.store i) i = .ok store3 ∧
        writeLoop D prev rest
          ⟨aupdate w.slots name (some i), store3, w.lines ++ [name],
           w.added, w.modified ++ [name]⟩ = .ok w') ∨
       (∃ store3, alookup prev name = none ∧
        addReference (proveItStorageId w.store i) i = .ok store3 ∧
        writeLoop D prev rest
          ⟨aupdate w.slots name (some i), store3, w.lines ++ [name],
           w.added ++ [name], w.modified⟩ = .ok w')) := by
  simp only [writeLoop] at h
  cases hD : D name with
  | none => rw [hD] at h; cases h
  | some i =>
    rw [hD] at h
    simp only at h
    refine ⟨i, rfl, ?_⟩
    cases hP : alookup prev name with
    | some pid =>
      rw [hP] at h
      simp only at h
      by_cases hpi : pid = i
      · rw [if_pos hpi] at h
        exact Or.inl ⟨by rw [hpi], h⟩
      · rw [if_neg hpi] at h
        cases hA : addReference
            (match (alookup w.slots name).join with
             | some old => removeReference (proveItStorageId w.store i) old true
             | none => proveItStorageId w.store i) i with
        | error e => rw [hA] at h; cases h
        | ok store3 =>
          rw [hA] at h
          exact Or.inr (Or.inl ⟨pid, store3, rfl, hpi, rfl, h⟩)
    | none =>
      rw [hP] at h
      simp only at h
      cases hA : addReference (proveItStorageId w.store i) i with
      | error e => rw [hA] at h; cases h
      | ok store3 =>
        rw [hA] at h
        exact Or.inr (Or.inr ⟨store3, rfl, rfl, h⟩)

theorem writeLoop_slots_mem {D : String → Option String}
    {prev : List (String × String)} {ns : List String} {w w' : WLOut}
    (h : writeLoop D prev ns w = .ok w') :
    ∀ p ∈ w'.slots, p ∈ w.slots ∨ ∃ i, D p.1 = some i ∧ p.2 = some i := by
  induction ns generalizing w with
  | nil =>
    simp only [writeLoop] at h
    cases h
    intro p hp
    exact Or.inl hp
  | cons name rest ih =>
    obtain ⟨i, hD, hcase⟩ := writeLoop_cons_cases h
    rcases hcase with ⟨_, hrec⟩ | ⟨pid, store3, _, _, _, hrec⟩ |
        ⟨store3, _, _, hrec⟩
    · intro p hp
      exact ih hrec p hp
    · intro p hp
      rcases ih hrec p hp with hh | hh
      · rcases mem_aupdate hh with hh | hh
        · exact Or.inl hh
        · refine Or.inr ⟨i, ?_, ?_⟩
          · rw [hh]; exact hD
          · rw [hh]
      · exact Or.inr hh
    · intro p hp
      rcases ih hrec p hp with hh | hh
      · rcases mem_aupdate hh with hh | hh
        · exact Or.inl hh
        · refine Or.inr ⟨i, ?_, ?_⟩
          · rw [hh]; exact hD
          · rw [hh]
      · exact Or.inr hh

theorem writeLoop_slots_lookup {D : String → Option String}
    {prev : List (String × String)} {ns : List String} {w w' : WLOut}
    (hinv : ∀ n c, alookup prev n = some c →
      alookup w.slots n = some (some c) ∨
      ∃ i, D n = some i ∧ alookup w.slots n = some (some i))
    (h : writeLoop D prev ns w = .ok w') :
    (∀ n ∈ ns, ∃ i, D n = some i ∧ alookup w'.slots n = some (some i)) ∧
    (∀ n, alookup w'.slots n = alookup w.slots n ∨
      ∃ i, D n = some i ∧ alookup w'.slots n = some (some i)) := by
  induction ns generalizing w with
  | nil =>
    simp only [writeLoop] at h
    cases h
    exact ⟨fun n hn => absurd hn (List.not_mem_nil n), fun n => Or.inl rfl⟩
  | cons name rest ih =>
    obtain ⟨i, hD, hcase⟩ := writeLoop_cons_cases h
    rcases hcase with ⟨hP, hrec⟩ | ⟨pid, store3, hP, hne, hA, hrec⟩ |
        ⟨store3, hP, hA, hrec⟩
    · -- unchanged statement: slots not touched
      obtain ⟨hall, hframe⟩ :=
        @ih { w with store := proveItStorageId w.store i,
                     lines := w.lines ++ [name] } hinv hrec
      refine ⟨?_, hframe⟩
      intro n hn
      rcases List.mem_cons.mp hn with hn | hn
      · subst hn
        refine ⟨i, hD, ?_⟩
        rcases hframe n with hf | hf
        · rw [hf]
          rcases hinv n i hP with hh | ⟨j, hj, hh⟩
          · exact hh
          · rw [hj] at hD; cases hD; exact hh
        · obtain ⟨j, hj, hh⟩ := hf
          rw [hj] at hD; cases hD; exact hh
      · exact hall n hn
    · -- modified statement: slot overwritten with the new id
      have hinv2 : ∀ n c, alookup prev n = some c →
          alookup (aupdate w.slots name (some i)) n = some (some c) ∨
          ∃ j, D n = some j ∧
            alookup (aupdate w.slots name (some i)) n = some (some j) := by
        intro n c hc
        by_cases hn : n = name
        · subst hn
          exact Or.inr ⟨i, hD, alookup_aupdate_self _ _ _⟩
        · rw [alookup_aupdate_ne _ _ _ _ hn]
          exact hinv n c hc
      obtain ⟨hall, hframe⟩ := ih hinv2 hrec
      constructor
      · intro n hn
        rcases List.mem_cons.mp hn with hn | hn
        · subst hn
          refine ⟨i, hD, ?_⟩
          rcases hframe n with hf | hf
          · rw [hf, alookup_aupdate_self]
          · obtain ⟨j, hj, hh⟩ := hf
            rw [hj] at hD; cases hD; exact hh
        · exact hall n hn
      · intro n
        by_cases hn : n = name
        · subst hn
          rcases hframe n with hf | hf
          · rw [hf, alookup_aupdate_self]
            exact Or.inr ⟨i, hD, rfl⟩
          · exact Or.inr hf
        · rcases hframe n with hf | hf
          · rw [hf, alookup_aupdate_ne _ _ _ _ hn]
            exact Or.inl rfl
          · exact Or.inr hf
    · -- added statement: fresh slot written with the new id
      have hinv2 : ∀ n c, alookup prev n = some c →
          alookup (aupdate w.slots name (some i)) n = some (some c) ∨
          ∃ j, D n = some j ∧
            alookup (aupdate w.slots name (some i)) n = some (some j) := by
        intro n c hc
        by_cases hn : n = name
        · subst hn
          exact Or.inr ⟨i, hD, alookup_aupdate_self _ _ _⟩
        · rw [alookup_aupdate_ne _ _ _ _ hn]
          exact hinv n c hc
      obtain ⟨hall, hframe⟩ := ih hinv2 hrec
      constructor
      · intro n hn
        rcases List.mem_cons.mp hn with hn | hn
        · subst hn
          refine ⟨i, hD, ?_⟩
          rcases hframe n with hf | hf
          · rw [hf, alookup_aupdate_self]
          · obtain ⟨j, hj, hh⟩ := hf
            rw [hj] at hD; cases hD; exact hh
        · exact hall n hn
      · intro n
        by_cases hn : n = name
        · subst hn
          rcases hframe n with hf | hf
          · rw [hf, alookup_aupdate_self]
            exact Or.inr ⟨i, hD, rfl⟩
          · exact Or.inr hf
        · rcases hframe n with hf | hf
          · rw [hf, alookup_aupdate_ne _ _ _ _ hn]
            exact Or.inl rfl
          · exact Or.inr hf

theorem writeLoop_store {D : String → Option String}
    {prev : List (String × String)} {ns : List String} {w w' : WLOut}
    (h : writeLoop D prev ns w = .ok w') :
    (∀ k, (alookup w.store k).isSome → (alookup w'.store k).isSome) ∧
    (∀ n ∈ ns, ∃ i, D n = some i ∧ (alookup w'.store i).isSome) := by
  induction ns generalizing w with
  | nil =>
    simp only [writeLoop] at h
    cases h
    exact ⟨fun k hk => hk, fun n hn => absurd hn (List.not_mem_nil n)⟩
  | cons name rest ih =>
    obtain ⟨i, hD, hcase⟩ := writeLoop_cons_cases h
    rcases hcase with ⟨hP, hrec⟩ | ⟨pid, store3, hP, hne, hA, hrec⟩ |
        ⟨store3, hP, hA, hrec⟩
    · obtain ⟨hpres, hall⟩ := ih hrec
      constructor
      · intro k hk
        apply hpres
        simp only
        rw [alookup_proveItStorageId_of_isSome _ _ _ hk]
        exact hk
      · intro n hn
        rcases List.mem_cons.mp hn with hn | hn
        · subst hn
          refine ⟨i, hD, ?_⟩
          apply hpres
          simp only
          exact isSome_alookup_proveItStorageId_self _ _
        · exact hall n hn
    · obtain ⟨hpres, hall⟩ := ih hrec
      have hstep : ∀ k, (alookup w.store k).isSome →
          (alookup store3 k).isSome := by
        intro k hk
        have h1 : (alookup (proveItStorageId w.store i) k).isSome := by
          rw [alookup_proveItStorageId_of_isSome _ _ _ hk]; exact hk
        have h2 : (alookup
            (match (alookup w.slots name).join with
             | some old => removeReference (proveItStorageId w.store i) old true
             | none => proveItStorageId w.store i) k).isSome := by
          cases hj : (alookup w.slots name).join with
          | none => simpa [hj] using h1
          | some old =>
            simp only [hj]
            exact isSome_alookup_removeReference _ _ _ _ h1
        unfold addReference at hA
        cases hc : alookup
            (match (alookup w.slots name).join with
             | some old => removeReference (proveItStorageId w.store i) old true
             | none => proveItStorageId w.store i) i with
        | none => rw [hc] at hA; cases hA
        | some c =>
          rw [hc] at hA
          cases hA
          exact isSome_alookup_aupdate _ _ _ _ h2
      have hstepi : (alookup store3 i).isSome := by
        unfold addReference at hA
        cases hc : alookup
            (match (alookup w.slots name).join with
             | some old => removeReference (proveItStorageId w.store i) old true
             | none => proveItStorageId w.store i) i with
        | none => rw [hc] at hA; cases hA
        | some c =>
          rw [hc] at hA
          cases hA
          rw [alookup_aupdate_self]
          rfl
      constructor
      · intro k hk
        exact hpres k (hstep k hk)
      · intro n hn
        rcases List.mem_cons.mp hn with hn | hn
        · subst hn
          exact ⟨i, hD, hpres i hstepi⟩
        · exact hall n hn
    · obtain ⟨hpres, hall⟩ := ih hrec
      have hstep : ∀ k, (alookup w.store k).isSome →
          (alookup store3 k).isSome := by
        intro k hk
        have h1 : (alookup (proveItStorageId w.store i) k).isSome := by
          rw [alookup_proveItStorageId_of_isSome _ _ _ hk]; exact hk
        unfold addReference at hA
        cases hc : alookup (proveItStorageId w.store i) i with
        | none => rw [hc] at hA; cases hA
        | some c =>
          rw [hc] at hA
          cases hA
          exact isSome_alookup_aupdate _ _ _ _ h1
      have hstepi : (alookup store3 i).isSome := by
        unfold addReference at hA
        cases hc : alookup (proveItStorageId w.store i) i with
        | none => rw [hc] at hA; cases hA
        | some c =>
          rw [hc] at hA
          cases hA
          rw [alookup_aupdate_self]
          rfl
      constructor
      · intro k hk
        exact hpres k (hstep k hk)
      · intro n hn
        rcases List.mem_cons.mp hn with hn | hn
        · subst hn
          exact ⟨i, hD, hpres i hstepi⟩
        · exact hall n hn

theorem writeLoop_noop {D : String → Option String}
    {prev : List (String × String)} {ns : List String} {w : WLOut}
    (h : ∀ n ∈ ns, ∃ i, D n = some i ∧ alookup prev n = some i ∧
      (alookup w.store i).isSome) :
    writeLoop D prev ns w = .ok { w with lines := w.lines ++ ns } := by
  induction ns generalizing w with
  | nil => simp [writeLoop]
  | cons name rest ih =>
    obtain ⟨i, hD, hP, hS⟩ := h name (List.mem_cons_self _ _)
    simp only [writeLoop, hD, hP, proveItStorageId_eq_of_isSome hS, if_true]
    have hrest : ∀ n ∈ rest, ∃ i, D n = some i ∧ alookup prev n = some i ∧
        (alookup w.store i).isSome :=
      fun n hn => h n (List.mem_cons_of_mem _ hn)
    rw [@ih ⟨w.slots, w.store, w.lines ++ [name], w.added, w.modified⟩ hrest]
    simp [List.append_assoc]

theorem join_eq_some {α : Type} {o : Option (Option α)} {c : α}
    (h : o.join = some c) : o = some (some c) := by
  cases o with
  | none => cases h
  | some oc =>
    cases oc with
    | none => cases h
    | some v =>
      have hv : some v = some c := h
      rw [hv]

/-- Claim C1: the statement-ledger reconcile is idempotent.  If
    `_setSpecialStatements` succeeds once for `(names, definitions)`, calling
    it again on the resulting state with the identical arguments succeeds,
    reports no added, modified or removed names, and returns the state
    unchanged (slots, ledger file, and all reference counts). -/
theorem ledger_reconcile_idempotent (st0 : LedgerState) (N : List String)
    (D : String → Option String) (st1 : LedgerState) (rep1 : ChangeReport)
    (h1 : setSpecialStatements st0 N D = .ok (st1, rep1)) :
    setSpecialStatements st1 N D = .ok (st1, ⟨[], [], []⟩) := by
  simp only [setSpecialStatements] at h1
  cases hr : readPrev st0.slots with
  | error e => rw [hr] at h1; cases h1
  | ok prev =>
    rw [hr] at h1
    simp only at h1
    cases hw : writeLoop D prev N ⟨st0.slots, st0.store, [], [], []⟩ with
    | error e => rw [hw] at h1; cases h1
    | ok w =>
      rw [hw] at h1
      simp only [Except.ok.injEq, Prod.mk.injEq] at h1
      obtain ⟨hst1, hrep1⟩ := h1
      subst hst1
      have hlines : w.lines = N := by
        have := writeLoop_lines hw
        simpa using this
      have hinv0 : ∀ n c, alookup prev n = some c →
          alookup st0.slots n = some (some c) ∨
          ∃ i, D n = some i ∧ alookup st0.slots n = some (some i) := by
        intro n c hc
        left
        apply join_eq_some
        rw [← readPrev_lookup hr n]
        exact hc
      have hinv0' : ∀ n c, alookup prev n = some c →
          alookup (⟨st0.slots, st0.store, [], [], []⟩ : WLOut).slots n =
            some (some c) ∨
          ∃ i, D n = some i ∧
            alookup (⟨st0.slots, st0.store, [], [], []⟩ : WLOut).slots n =
              some (some i) := hinv0
      obtain ⟨hall, hframe⟩ := writeLoop_slots_lookup hinv0' hw
      obtain ⟨hpres, hstall⟩ := writeLoop_store hw
      have hmem := writeLoop_slots_mem hw
      -- the committed state
      have hP1a : ∀ p ∈ (removeLoop (toRemoveList D st0.slots) w.slots
          w.store).1, p.2.isSome := by
        intro p hp
        obtain ⟨hpw, _⟩ := removeLoop_mem.mp hp
        rcases hmem p hpw with hh | ⟨i, _, hh⟩
        · exact readPrev_allSome hr p hh
        · rw [hh]; rfl
      have hP1b : ∀ p ∈ (removeLoop (toRemoveList D st0.slots) w.slots
          w.store).1, (D p.1).isSome := by
        intro p hp
        obtain ⟨hpw, hnr⟩ := removeLoop_mem.mp hp
        rcases hmem p hpw with hh | ⟨i, hi, _⟩
        · cases hD : D p.1 with
          | some v => rfl
          | none =>
            exact absurd (mem_toRemoveList_of hh (by rw [hD]; rfl)) hnr
        · rw [hi]; rfl
      have hP2 : ∀ n ∈ N, ∃ i, D n = some i ∧
          alookup (removeLoop (toRemoveList D st0.slots) w.slots
            w.store).1 n = some (some i) := by
        intro n hn
        obtain ⟨i, hDn, hwn⟩ := hall n hn
        refine ⟨i, hDn, ?_⟩
        have hnr : n ∉ toRemoveList D st0.slots := by
          intro hmem2
          have := mem_toRemoveList_isNone hmem2
          rw [hDn] at this
          cases this
        rw [removeLoop_lookup hnr]
        exact hwn
      have hP3 : ∀ n ∈ N, ∃ i, D n = some i ∧
          (alookup (removeLoop (toRemoveList D st0.slots) w.slots
            w.store).2 i).isSome := by
        intro n hn
        obtain ⟨i, hDn, hsw⟩ := hstall n hn
        exact ⟨i, hDn, removeLoop_store_isSome hsw⟩
      -- second call
      obtain ⟨prev2, hr2⟩ := readPrev_ok_of_allSome hP1a
      have htr2 : toRemoveList D (removeLoop (toRemoveList D st0.slots)
          w.slots w.store).1 = [] := toRemoveList_nil hP1b
      have hnoop : ∀ n ∈ N, ∃ i, D n = some i ∧ alookup prev2 n = some i ∧
          (alookup (removeLoop (toRemoveList D st0.slots) w.slots
            w.store).2 i).isSome := by
        intro n hn
        obtain ⟨i, hDn, hlk⟩ := hP2 n hn
        obtain ⟨i', hDn', hst⟩ := hP3 n hn
        have hii : i' = i := by
          rw [hDn] at hDn'
          cases hDn'
          rfl
        refine ⟨i, hDn, ?_, ?_⟩
        · rw [readPrev_lookup hr2 n, hlk]
          rfl
        · rw [← hii]
          exact hst
      have hw2 := @writeLoop_noop D prev2 N
        ⟨(removeLoop (toRemoveList D st0.slots) w.slots w.store).1,
         (removeLoop (toRemoveList D st0.slots) w.slots w.store).2,
         [], [], []⟩ hnoop
      simp only [setSpecialStatements]
      rw [show readPrev (⟨(removeLoop (toRemoveList D st0.slots) w.slots
          w.store).1, w.lines, (removeLoop (toRemoveList D st0.slots)
          w.slots w.store).2⟩ : LedgerState).slots = .ok prev2 from hr2]
      simp only
      rw [show writeLoop D prev2 N
          ⟨(removeLoop (toRemoveList D st0.slots) w.slots w.store).1,
           (removeLoop (toRemoveList D st0.slots) w.slots w.store).2,
           [], [], []⟩ = _ from hw2]
      simp only [htr2, removeLoop, hlines, List.nil_append]

/-- Claim C1 witness: a first reconcile from the empty state with one axiom
    name, then the idempotent second call. -/
theorem ledger_reconcile_idempotent_witness :
    setSpecialStatements
      ⟨[("a", some "h1")], ["a"], [("h1", 1)]⟩ ["a"]
      (fun n => if n = "a" then some "h1" else none) =
    .ok (⟨[("a", some "h1")], ["a"], [("h1", 1)]⟩, ⟨[], [], []⟩) :=
  ledger_reconcile_idempotent ⟨[], [], []⟩ ["a"]
    (fun n => if n = "a" then some "h1" else none)
    ⟨[("a", some "h1")], ["a"], [("h1", 1)]⟩ ⟨["a"], [], []⟩ rfl

/-- Common-expression-table state of one context: `commonsFile` models
    `commons.pv_it` as its sequence of `name expr_id` lines (`none` when the
    file does not exist), `store` the context's content store.  Names in this
    file are whitespace-free tokens (`line.split()` presumes it). -/
structure CommonsState where
  commonsFile : Option (List (String × String))
  store : Store
  deriving DecidableEq, Repr

/-- The `old_expr_ids` set read by `Context._setCommonExpressions` from a
    pre-existing `commons.pv_it`: the expression ids of its lines, as a
    Python set (duplicates collapse; membership is what matters). -/
def oldExprIds (st : CommonsState) : List String :=
  match st.commonsFile with
  | none => []
  | some lines => (lines.map (·.2)).dedup

/-- Result of the write loop of `Context._setCommonExpressions`. -/
structure CLOut where
  oldRem : List String
  newIds : List String
  lines : List (String × String)
  store : Store
  deriving DecidableEq, Repr

/-- Write loop of `Context._setCommonExpressions`: for each name in order,
    fetch the definition (Python `KeyError` if absent), store it
    (`_proveItStorageId`), write the `name expr_id` line; an id found in
    `old_expr_ids` is discarded from that set ('same expression as before'),
    otherwise it is accumulated into `new_expr_ids` (a set: duplicates
    collapse).  The `_common_expr_ids` in-memory cache mirrors the written
    file and is not modelled separately. -/
def commonsLoop (D : String → Option String) :
    List String → List String → List String → List (String × String) →
    Store → Except CtxErr CLOut
  | [], old, newIds, lines, store => .ok ⟨old, newIds, lines, store⟩
  | name :: rest, old, newIds, lines, store =>
    match D name with
    | none => .error .keyError
    | some i =>
      let store1 := proveItStorageId store i
      let lines1 := lines ++ [(name, i)]
      if i ∈ old then commonsLoop D rest (old.erase i) newIds lines1 store1
      else if i ∈ newIds then commonsLoop D rest old newIds lines1 store1
      else commonsLoop D rest old (newIds ++ [i]) lines1 store1

/-- Release of references to old common expressions no longer present
    (`storage._removeReference(expr_id, removingSpecialExpr=True)` for each
    remaining old id). -/
def remRefs (L : List String) (store : Store) : Store :=
  L.foldl (fun s h => removeReference s h true) store

/-- Addition of references to new common expressions
    (`storage._addReference(expr_id)` for each accumulated new id). -/
def addRefs : List String → Store → Except CtxErr Store
  | [], store => .ok store
  | h :: t, store =>
    match addReference store h with
    | .error e => .error e
    | .ok store1 => addRefs t store1

/-- Embeds `Context._setCommonExpressions(exprNames, exprDefinitions)`: read
    the previous ids from `commons.pv_it` (if present), rewrite the file in
    the caller-supplied order while splitting ids into kept/new, then release
    references of old ids no longer present and add references for new ids.
    Returns the new state together with the lists of released and
    newly-referenced ids (the arguments of the `_removeReference` /
    `_addReference` calls issued). -/
def setCommonExpressions (st : CommonsState) (names : List String)
    (D : String → Option String) :
    Except CtxErr (CommonsState × List String × List String) :=
  match commonsLoop D names (oldExprIds st) [] [] st.store with
  | .error e => .error e
  | .ok c =>
    let store1 := remRefs c.oldRem c.store
    match addRefs c.newIds store1 with
    | .error e => .error e
    | .ok store2 => .ok (⟨some c.lines, store2⟩, c.oldRem, c.newIds)

/-- Claim C7 counterexample: a slot directory for `sinDef` exists but its
    expected `expr.pv_it` hash file is missing; the lookup
    (`_getSpecialStatementExpr`) catches the `IOError` and reports Python
    `KeyError` — i.e. plain absence — rather than the distinct
    `CorruptStoreError` the claim requires for corruption. -/
theorem lookup_corruption_reported_as_absence :
    getSpecialStatementExpr ⟨[("sinDef", none)], ["sinDef"], []⟩ "sinDef" =
      .error .keyError ∧
    getSpecialStatementExpr ⟨[("sinDef", none)], ["sinDef"], []⟩ "sinDef" ≠
      .error .corrupt ∧
    (alookup (⟨[("sinDef", none)], ["sinDef"], []⟩ : LedgerState).slots
      "sinDef").isSome := by
  refine ⟨rfl, ?_, rfl⟩
  intro h
  cases h

/-- Claim C7 (amended): during reconcile, a listed slot missing its hash
    file aborts with the corruption error (`ContextException`), whereas the
    lookup path reports both an absent name and a slot missing its hash file
    as `KeyError` (absence). -/
theorem statement_failure_classification (st : LedgerState) (name : String)
    (N : List String) (D : String → Option String) :
    (alookup st.slots name = none →
      getSpecialStatementExpr st name = .error .keyError) ∧
    (alookup st.slots name = some none →
      getSpecialStatementExpr st name = .error .keyError) ∧
    ((name, none) ∈ st.slots →
      setSpecialStatements st N D = .error .corrupt) := by
  refine ⟨?_, ?_, ?_⟩
  · intro h
    simp [getSpecialStatementExpr, h]
  · intro h
    simp [getSpecialStatementExpr, h]
  · intro h
    simp only [setSpecialStatements, readPrev_error_of_missing h]

/-- Claim C7 witness: the three failure modes at concrete states. -/
theorem statement_failure_classification_witness :
    getSpecialStatementExpr ⟨[], [], []⟩ "missing" = .error .keyError ∧
    getSpecialStatementExpr ⟨[("s", none)], [], []⟩ "s" = .error .keyError ∧
    setSpecialStatements ⟨[("s", none)], [], []⟩ [] (fun _ => none) =
      .error .corrupt := by
  have h1 := statement_failure_classification ⟨[], [], []⟩ "missing" []
    (fun _ => none)
  have h2 := statement_failure_classification ⟨[("s", none)], [], []⟩ "s" []
    (fun _ => none)
  exact ⟨h1.1 rfl, h2.2.1 rfl, h2.2.2 (by decide)⟩

theorem commonsLoop_sets {D : String → Option String} {ns : List String}
    {old newIds : List String} {lines : List (String × String)}
    {store : Store} {c : CLOut}
    (h : commonsLoop D ns old newIds lines store = .ok c)
    (hold : old.Nodup) (hnod : (ns.filterMap D).Nodup)
    (hfresh : ∀ i ∈ ns.filterMap D, i ∉ newIds) :
    (∀ x, x ∈ c.oldRem ↔ x ∈ old ∧ x ∉ ns.filterMap D) ∧
    (∀ x, x ∈ c.newIds ↔ x ∈ newIds ∨ (x ∈ ns.filterMap D ∧ x ∉ old)) := by
  induction ns generalizing old newIds lines store with
  | nil =>
    simp only [commonsLoop] at h
    cases h
    constructor
    · intro x
      simp
    · intro x
      simp
  | cons name rest ih =>
    simp only [commonsLoop] at h
    cases hD : D name with
    | none => rw [hD] at h; cases h
    | some i =>
      rw [hD] at h
      simp only at h
      have hids : (name :: rest).filterMap D = i :: rest.filterMap D := by
        simp [List.filterMap_cons, hD]
      rw [hids] at hnod hfresh
      have hnodR : (rest.filterMap D).Nodup := hnod.of_cons
      have hiR : i ∉ rest.filterMap D := by
        have := List.nodup_cons.mp hnod
        exact this.1
      by_cases h1 : i ∈ old
      · rw [if_pos h1] at h
        have hfreshR : ∀ j ∈ rest.filterMap D, j ∉ newIds := by
          intro j hj
          exact hfresh j (List.mem_cons_of_mem _ hj)
        obtain ⟨ho, hn⟩ := ih h (hold.erase i) hnodR hfreshR
        rw [hids]
        constructor
        · intro x
          rw [ho x]
          rw [List.Nodup.mem_erase_iff hold]
          constructor
          · intro ⟨⟨hx1, hx2⟩, hx3⟩
            refine ⟨hx2, ?_⟩
            simp only [List.mem_cons, not_or]
            exact ⟨hx1, hx3⟩
          · intro ⟨hx1, hx2⟩
            simp only [List.mem_cons, not_or] at hx2
            exact ⟨⟨hx2.1, hx1⟩, hx2.2⟩
        · intro x
          rw [hn x]
          constructor
          · intro hx
            rcases hx with hx | ⟨hx1, hx2⟩
            · exact Or.inl hx
            · refine Or.inr ⟨List.mem_cons_of_mem _ hx1, ?_⟩
              intro hx3
              rw [List.Nodup.mem_erase_iff hold] at hx2
              rcases Classical.em (x = i) with he | he
              · rw [he] at hx1; exact hiR hx1
              · exact hx2 ⟨he, hx3⟩
          · intro hx
            rcases hx with hx | ⟨hx1, hx2⟩
            · exact Or.inl hx
            · rcases List.mem_cons.mp hx1 with he | he
              · rw [he] at hx2; exact absurd h1 hx2
              · refine Or.inr ⟨he, ?_⟩
                rw [List.Nodup.mem_erase_iff hold]
                intro ⟨_, hx3⟩
                exact hx2 hx3
      · rw [if_neg h1] at h
        have hiN : i ∉ newIds := hfresh i (List.mem_cons_self _ _)
        rw [if_neg hiN] at h
        have hfreshR : ∀ j ∈ rest.filterMap D, j ∉ newIds ++ [i] := by
          intro j hj
          simp only [List.mem_append, List.mem_singleton, not_or]
          refine ⟨hfresh j (List.mem_cons_of_mem _ hj), ?_⟩
          intro he
          rw [he] at hj
          exact hiR hj
        obtain ⟨ho, hn⟩ := ih h hold hnodR hfreshR
        rw [hids]
        constructor
        · intro x
          rw [ho x]
          constructor
          · intro ⟨hx1, hx2⟩
            refine ⟨hx1, ?_⟩
            simp only [List.mem_cons, not_or]
            refine ⟨?_, hx2⟩
            intro he
            rw [he] at hx1
            exact h1 hx1
          · intro ⟨hx1, hx2⟩
            simp only [List.mem_cons, not_or] at hx2
            exact ⟨hx1, hx2.2⟩
        · intro x
          rw [hn x]
          constructor
          · intro hx
            rcases hx with hx | ⟨hx1, hx2⟩
            · rcases List.mem_append.mp hx with hx | hx
              · exact Or.inl hx
              · rw [List.mem_singleton.mp hx]
                exact Or.inr ⟨List.mem_cons_self _ _, h1⟩
            · exact Or.inr ⟨List.mem_cons_of_mem _ hx1, hx2⟩
          · intro hx
            rcases hx with hx | ⟨hx1, hx2⟩
            · exact Or.inl (List.mem_append.mpr (Or.inl hx))
            · rcases List.mem_cons.mp hx1 with he | he
              · rw [he]
                exact Or.inl (List.mem_append.mpr (Or.inr (List.mem_singleton.mpr rfl)))
              · exact Or.inr ⟨he, hx2⟩

theorem commonsLoop_store_pres {D : String → Option String} {ns : List String}
    {old newIds : List String} {lines : List (String × String)}
    {store : Store} {c : CLOut}
    (h : commonsLoop D ns old newIds lines store = .ok c) :
    ∀ k v, alookup store k = some v → alookup c.store k = some v := by
  induction ns generalizing old newIds lines store with
  | nil =>
    simp only [commonsLoop] at h
    cases h
    intro k v hv
    exact hv
  | cons name rest ih =>
    simp only [commonsLoop] at h
    cases hD : D name with
    | none => rw [hD] at h; cases h
    | some i =>
      rw [hD] at h
      simp only at h
      intro k v hv
      have hv1 : alookup (proveItStorageId store i) k = some v := by
        rw [alookup_proveItStorageId_of_isSome _ _ _ (by rw [hv]; rfl)]
        exact hv
      by_cases h1 : i ∈ old
      · rw [if_pos h1] at h
        exact ih h k v hv1
      · rw [if_neg h1] at h
        by_cases h2 : i ∈ newIds
        · rw [if_pos h2] at h
          exact ih h k v hv1
        · rw [if_neg h2] at h
          exact ih h k v hv1

theorem remRefs_pres {L : List String} {store : Store} {k : String}
    (hk : k ∉ L) : alookup (remRefs L store) k = alookup store k := by
  induction L generalizing store with
  | nil => rfl
  | cons x t ih =>
    simp only [List.mem_cons, not_or] at hk
    simp only [remRefs, List.foldl_cons]
    have := @ih (removeReference store x true) (by exact hk.2)
    rw [remRefs] at this
    rw [this]
    exact alookup_removeReference_ne _ _ _ _ hk.1

theorem addRefs_pres {L : List String} {store store2 : Store} {k : String}
    (h : addRefs L store = .ok store2) (hk : k ∉ L) :
    alookup store2 k = alookup store k := by
  induction L generalizing store with
  | nil =>
    simp only [addRefs] at h
    cases h
    rfl
  | cons x t ih =>
    simp only [List.mem_cons, not_or] at hk
    simp only [addRefs] at h
    cases hA : addReference store x with
    | error e => rw [hA] at h; cases h
    | ok store1 =>
      rw [hA] at h
      rw [ih h hk.2]
      unfold addReference at hA
      cases hc : alookup store x with
      | none => rw [hc] at hA; cases hA
      | some cx =>
        rw [hc] at hA
        cases hA
        exact alookup_aupdate_ne _ _ _ _ hk.1

/-- Claim C6 (amended): the commons-table reconcile releases a reference for
    exactly the hashes in the previous table that are absent from the new
    id list, and adds a reference for exactly the hashes of the new list that
    were absent from the previous table; a hash present in both keeps its
    reference count — provided no two names of the new list map to the same
    hash (with duplicate hashes, a hash present in both tables spuriously
    gains a reference; see the counterexample). -/
theorem commons_reference_discipline (st : CommonsState) (N : List String)
    (D : String → Option String) (st1 : CommonsState) (rel add : List String)
    (h : setCommonExpressions st N D = .ok (st1, rel, add))
    (hnod : (N.filterMap D).Nodup) :
    (∀ x, x ∈ rel ↔ x ∈ oldExprIds st ∧ x ∉ N.filterMap D) ∧
    (∀ x, x ∈ add ↔ x ∈ N.filterMap D ∧ x ∉ oldExprIds st) ∧
    (∀ x v, x ∈ oldExprIds st → x ∈ N.filterMap D →
      alookup st.store x = some v → alookup st1.store x = some v) := by
  simp only [setCommonExpressions] at h
  cases hc : commonsLoop D N (oldExprIds st) [] [] st.store with
  | error e => rw [hc] at h; cases h
  | ok c =>
    rw [hc] at h
    simp only at h
    cases ha : addRefs c.newIds (remRefs c.oldRem c.store) with
    | error e => rw [ha] at h; cases h
    | ok store2 =>
      rw [ha] at h
      simp only [Except.ok.injEq, Prod.mk.injEq] at h
      obtain ⟨hst1, hrel, hadd⟩ := h
      have holdnd : (oldExprIds st).Nodup := by
        unfold oldExprIds
        cases st.commonsFile with
        | none => exact List.nodup_nil
        | some lines => exact (lines.map (·.2)).nodup_dedup
      obtain ⟨ho, hn⟩ := commonsLoop_sets hc holdnd hnod
        (fun i _ hi => absurd hi (List.not_mem_nil i))
      refine ⟨?_, ?_, ?_⟩
      · intro x
        rw [← hrel]
        exact ho x
      · intro x
        rw [← hadd, hn x]
        simp
      · intro x v hxold hxnew hv
        have hxrel : x ∉ c.oldRem := by
          rw [ho x]
          intro ⟨_, hx2⟩
          exact hx2 hxnew
        have hxadd : x ∉ c.newIds := by
          rw [hn x]
          simp only [List.not_mem_nil, false_or, not_and, not_not]
          intro _
          exact hxold
        rw [← hst1]
        simp only
        rw [addRefs_pres ha hxadd, remRefs_pres hxrel]
        exact commonsLoop_store_pres hc x v hv

/-- Claim C6 counterexample: previous table maps `x` to hash `h`; the new
    call gives two names `a`, `b` defined to the same hash `h`.  Hash `h` is
    present in both the old and the new table, yet `_addReference("h")` is
    issued and its count rises from 1 to 2 — refuting the claim that hashes
    present in both tables are left untouched. -/
theorem commons_reference_discipline_counterexample :
    setCommonExpressions ⟨some [("x", "h")], [("h", 1)]⟩ ["a", "b"]
      (fun n => if n = "a" ∨ n = "b" then some "h" else none) =
      .ok (⟨some [("a", "h"), ("b", "h")], [("h", 2)]⟩, [], ["h"]) ∧
    "h" ∈ oldExprIds ⟨some [("x", "h")], [("h", 1)]⟩ ∧
    "h" ∈ ["a", "b"].filterMap
      (fun n => if n = "a" ∨ n = "b" then some "h" else none) ∧
    alookup [("h", 1)] "h" ≠ alookup [("h", 2)] "h" := by
  refine ⟨rfl, by decide, by decide, by decide⟩

/-- Claim C6 witness for the amended theorem: distinct hashes; old table has
    `h1` (kept) and `h2` (released), the new list brings `h3` (added). -/
theorem commons_reference_discipline_witness :
    ("h2" ∈ (["h2"] : List String) ∧ "h2" ∈ oldExprIds
      ⟨some [("p", "h1"), ("q", "h2")], [("h1", 1), ("h2", 1)]⟩) ∧
    ("h3" ∈ (["h3"] : List String)) ∧
    alookup [("h1", 1), ("h2", 0), ("h3", 1)] "h1" = some 1 := by
  have h := commons_reference_discipline
    ⟨some [("p", "h1"), ("q", "h2")], [("h1", 1), ("h2", 1)]⟩
    ["a", "c"]
    (fun n => if n = "a" then some "h1" else if n = "c" then some "h3"
      else none)
    ⟨some [("a", "h1"), ("c", "h3")], [("h1", 1), ("h2", 0), ("h3", 1)]⟩
    ["h2"] ["h3"] rfl (by decide)
  refine ⟨⟨?_, ?_⟩, ?_, ?_⟩
  · exact (h.1 "h2").mpr (by decide)
  · exact ((h.1 "h2").mp (by decide)).1
  · exact (h.2.1 "h3").mpr (by decide)
  · exact h.2.2 "h1" 1 (by decide) (by decide) rfl

/-- A raw filesystem path handed to `Context.__init__`: absolute flag plus
    separator-split segments (POSIX model; `os.path.normcase` is the
    identity there, matching the code comment about case-insensitive
    filesystems being a Windows concern). -/
structure RawPath where
  isAbs : Bool
  segs : List String
  deriving DecidableEq, Repr

/-- One step of `os.path.normpath` over segments: drop `.` and empty
    segments, resolve `..` textually against the accumulated prefix (at the
    root it stays at the root, as `normpath('/..') == '/'`). -/
def normStep (acc : List String) (s : String) : List String :=
  if s = "." ∨ s = "" then acc
  else if s = ".." then acc.dropLast
  else acc ++ [s]

/-- `os.path.abspath`: join a relative path onto the working directory and
    normalize textually — symlinks are NOT resolved (that would be
    `os.path.realpath`, which the code never calls). -/
def abspath (cwd : List String) (p : RawPath) : List String :=
  (if p.isAbs then p.segs else cwd ++ p.segs).foldl normStep []

/-- The filesystem view consulted by `Context.__init__`: which directories
    carry an `__init__.py` marker (queried through the OS, so a symlinked
    directory shows its target's marker), and which paths are plain files. -/
structure Fs where
  hasInit : List String → Bool
  isFile : List String → Bool

/-- The directory-normalization part of `Context.__init__`: redirect a path
    inside `__pv_it` up to the owning context directory
    (`num_up_levels = len(splitpath) - splitpath.index('__pv_it')`, i.e. keep
    the segments before the first `__pv_it`), redirect a path whose original
    last segment is `_proofs_` one level up, apply `normcase` (identity on
    POSIX), and replace a file path by its containing directory. -/
def contextDir (fs : Fs) (cwd : List String) (raw : RawPath) : List String :=
  let p := abspath cwd raw
  let p1 := if "__pv_it" ∈ p then p.take (p.indexOf "__pv_it") else p
  let p2 := if p.getLast? = some "_proofs_" then p1.dropLast else p1
  if fs.isFile p2 then p2.dropLast else p2

/-- Fuelled name-climbing loop of `Context.__init__`: while the current
    directory has an `__init__.py`, prepend its last segment to the dotted
    name and move to the parent.  Fuel is the segment count (each step drops
    one segment); the pathological case of a root directory carrying
    `__init__.py` (where the Python loop would not terminate) is cut off at
    the empty path. -/
def climbAux (fs : Fs) : Nat → List String → List String
  | 0, _ => []
  | Nat.succ n, d =>
    if hd : d = [] then []
    else if fs.hasInit d then climbAux fs n d.dropLast ++ [d.getLast hd]
    else []

/-- Dotted-name segments accumulated by `Context.__init__`'s climb. -/
def climbName (fs : Fs) (d : List String) : List String :=
  climbAux fs d.length d

/-- A resolved Context handle: its dotted name and the key under which its
    `Storage` lives in the process-wide `Context.storages` cache (the final
    normalized directory path).  Two handles share one `Storage` object
    exactly when their keys coincide, because `Context.__init__` constructs
    a fresh `Storage` only for an absent key. -/
structure CtxHandle where
  name : String
  storageKey : List String
  deriving DecidableEq, Repr

/-- Embeds `Context.__init__` (the registry's `resolve`): normalize and
    redirect the path, climb accumulating the dotted name, fail with
    `ContextException('... must have an __init__.py file')` when the starting
    directory is not a context directory.  The recursive `rootContext`
    construction touches no modelled observable and is omitted. -/
def contextResolve (fs : Fs) (cwd : List String) (raw : RawPath) :
    Except CtxErr CtxHandle :=
  let d := contextDir fs cwd raw
  let parts := climbName fs d
  if parts = [] then .error .structural
  else .ok ⟨String.intercalate "." parts, d⟩

/-- `Context.__eq__`: `self._storage is other._storage`, i.e. same cache key. -/
def ctxEq (a b : CtxHandle) : Prop :=
  a.storageKey = b.storageKey

instance (a b : CtxHandle) : Decidable (ctxEq a b) := by
  unfold ctxEq
  infer_instance

/-- Model of OS-level symlink resolution (`os.path.realpath`) over a link
    table, used only to express the claim's "denote the same canonical
    directory"; the code under test never resolves symlinks. -/
def canonicalDir (links : List (List String × List String))
    (p : List String) : List String :=
  match links.find? (fun l => decide (l.1 = p.take l.1.length)) with
  | some l => l.2 ++ p.drop l.1.length
  | none => p

theorem contextResolve_storageKey {fs : Fs} {cwd : List String}
    {raw : RawPath} {c : CtxHandle}
    (h : contextResolve fs cwd raw = .ok c) :
    c.storageKey = contextDir fs cwd raw := by
  unfold contextResolve at h
  by_cases hp : climbName fs (contextDir fs cwd raw) = []
  · rw [if_pos hp] at h; cases h
  · rw [if_neg hp] at h
    cases h
    rfl

/-- Claim C3 (amended): Context handles built from two paths that normalize
    to the same string under `abspath` + `normcase` (no symlink resolution)
    share the same `Storage` drawn from the process-wide path-keyed cache and
    compare equal; paths that denote the same directory only through a
    symlink do NOT (see the counterexample). -/
theorem singleton_same_normalized_path (fs : Fs) (cwd : List String)
    (pA pB : RawPath) (cA cB : CtxHandle)
    (h : contextDir fs cwd pA = contextDir fs cwd pB)
    (hA : contextResolve fs cwd pA = .ok cA)
    (hB : contextResolve fs cwd pB = .ok cB) : ctxEq cA cB := by
  unfold ctxEq
  rw [contextResolve_storageKey hA, contextResolve_storageKey hB, h]

/-- Filesystem of the C3 counterexample: `/real` is a context directory and
    `/link` is a symlink to it, so the OS reports `__init__.py` under both
    names; nothing is a plain file. -/
def symlinkFs : Fs :=
  ⟨fun d => decide (d = ["real"]) || decide (d = ["link"]), fun _ => false⟩

/-- Claim C3 counterexample: `/real` and `/link` denote the same canonical
    directory through a symlink, yet `Context.__init__` normalizes with
    `abspath`+`normcase` only (never `realpath`), caches `Storage` under the
    two distinct keys, and the two handles compare unequal (`__eq__` is
    `storage is storage`). -/
theorem singleton_symlink_counterexample :
    canonicalDir [(["link"], ["real"])] (abspath [] ⟨true, ["real"]⟩) =
      canonicalDir [(["link"], ["real"])] (abspath [] ⟨true, ["link"]⟩) ∧
    contextResolve symlinkFs [] ⟨true, ["real"]⟩ = .ok ⟨"real", ["real"]⟩ ∧
    contextResolve symlinkFs [] ⟨true, ["link"]⟩ = .ok ⟨"link", ["link"]⟩ ∧
    ¬ ctxEq ⟨"real", ["real"]⟩ ⟨"link", ["link"]⟩ := by
  refine ⟨rfl, rfl, rfl, by decide⟩

/-- Claim C3 witness for the amended theorem: the relative path `.` taken
    from working directory `/real` and the absolute path `/real` normalize to
    the same string and yield equal handles. -/
theorem singleton_same_normalized_path_witness :
    ctxEq ⟨"real", ["real"]⟩ ⟨"real", ["real"]⟩ :=
  singleton_same_normalized_path symlinkFs ["real"] ⟨false, []⟩
    ⟨true, ["real"]⟩ ⟨"real", ["real"]⟩ ⟨"real", ["real"]⟩ rfl rfl rfl

theorem climbAux_char (fs : Fs) : ∀ (fuel : Nat) (d : List String) (k : Nat),
    d.length ≤ fuel → k ≤ d.length →
    (∀ j, k ≤ j → j < d.length → fs.hasInit (d.take (j + 1)) = true) →
    (k = 0 ∨ fs.hasInit (d.take k) = false) →
    climbAux fs fuel d = d.drop k := by
  intro fuel
  induction fuel with
  | zero =>
    intro d k hfuel hk _ _
    have hd : d = [] := List.length_eq_zero.mp (Nat.le_zero.mp hfuel)
    subst hd
    have hk0 : k = 0 := Nat.le_zero.mp hk
    subst hk0
    rfl
  | succ n ih =>
    intro d k hfuel hk h2 h3
    by_cases hd : d = []
    · subst hd
      have hk0 : k = 0 := Nat.le_zero.mp hk
      subst hk0
      rfl
    · have hlen : 1 ≤ d.length := List.length_pos.mpr hd
      by_cases hkl : k = d.length
      · have hk0 : k ≠ 0 := by omega
        have hfalse : fs.hasInit (d.take k) = false := by
          rcases h3 with h3 | h3
          · exact absurd h3 hk0
          · exact h3
        rw [hkl, List.take_length] at hfalse
        simp only [climbAux, dif_neg hd, hfalse, Bool.false_eq_true, if_false]
        rw [hkl, List.drop_length]
      · have hklt : k < d.length := Nat.lt_of_le_of_ne hk hkl
        have hinit : fs.hasInit d = true := by
          have := h2 (d.length - 1) (by omega) (by omega)
          rw [show d.length - 1 + 1 = d.length by omega, List.take_length]
            at this
          exact this
        simp only [climbAux, dif_neg hd, hinit, if_true]
        have hdl : d.dropLast = d.take (d.length - 1) := List.dropLast_eq_take d
        have htake : ∀ m, m ≤ d.length - 1 → d.dropLast.take m = d.take m := by
          intro m hm
          rw [hdl, List.take_take, min_eq_left hm]
        have hlength : d.dropLast.length = d.length - 1 :=
          List.length_dropLast d
        have ihres := ih d.dropLast k (by omega) (by omega)
          (by
            intro j hj1 hj2
            rw [hlength] at hj2
            rw [htake (j + 1) (by omega)]
            exact h2 j hj1 (by omega))
          (by
            rcases h3 with h3 | h3
            · exact Or.inl h3
            · right
              rw [htake k (by omega)]
              exact h3)
        rw [ihres]
        have hdecomp : d.dropLast ++ [d.getLast hd] = d :=
          List.dropLast_append_getLast hd
        conv_rhs => rw [← hdecomp]
        rw [List.drop_append_of_le_length (by rw [hlength]; omega)]

theorem climbName_eq_nil_of_noInit {fs : Fs} {d : List String}
    (h : fs.hasInit d = false) : climbName fs d = [] := by
  unfold climbName
  cases d with
  | nil => rfl
  | cons x t =>
    simp only [List.length_cons, climbAux]
    rw [dif_neg (by simp), h]
    simp

/-- Claim C8: path resolution in `Context.__init__`.  Writing `p` for the
    normalized absolute path of the input: (1) a path containing the storage
    sub-directory `__pv_it` is redirected to the segments before its first
    occurrence — the owning context directory; (2) a path ending in the
    proofs sub-directory `_proofs_` is redirected to its parent; (3) if the
    resulting directory is not marked by an `__init__.py`, resolution fails
    with the structural `ContextException`; (4) otherwise resolution succeeds
    with the dotted name joined from the climbed segments; (5) the climb
    accumulates exactly the maximal suffix of directories each carrying an
    `__init__.py`: if every prefix of length `k+1 .. n` is marked, and the
    prefix of length `k` is not (or `k = 0`), the name segments are
    `d.drop k`. -/
theorem context_path_resolution (fs : Fs) (cwd : List String) (raw : RawPath) :
    (("__pv_it" ∈ abspath cwd raw ∧
      (abspath cwd raw).getLast? ≠ some "_proofs_" ∧
      fs.isFile ((abspath cwd raw).take
        ((abspath cwd raw).indexOf "__pv_it")) = false) →
      contextDir fs cwd raw =
        (abspath cwd raw).take ((abspath cwd raw).indexOf "__pv_it")) ∧
    (("__pv_it" ∉ abspath cwd raw ∧
      (abspath cwd raw).getLast? = some "_proofs_" ∧
      fs.isFile ((abspath cwd raw).dropLast) = false) →
      contextDir fs cwd raw = (abspath cwd raw).dropLast) ∧
    (fs.hasInit (contextDir fs cwd raw) = false →
      contextResolve fs cwd raw = .error .structural) ∧
    (contextDir fs cwd raw ≠ [] →
      fs.hasInit (contextDir fs cwd raw) = true →
      contextResolve fs cwd raw =
        .ok ⟨String.intercalate "." (climbName fs (contextDir fs cwd raw)),
             contextDir fs cwd raw⟩) ∧
    (∀ k, k ≤ (contextDir fs cwd raw).length →
      (∀ j, k ≤ j → j < (contextDir fs cwd raw).length →
        fs.hasInit ((contextDir fs cwd raw).take (j + 1)) = true) →
      (k = 0 ∨ fs.hasInit ((contextDir fs cwd raw).take k) = false) →
      climbName fs (contextDir fs cwd raw) = (contextDir fs cwd raw).drop k) := by
  refine ⟨?_, ?_, ?_, ?_, ?_⟩
  · intro ⟨h1, h2, h3⟩
    unfold contextDir
    simp only [if_pos h1, if_neg h2, h3, Bool.false_eq_true, if_false]
  · intro ⟨h1, h2, h3⟩
    unfold contextDir
    simp only [if_neg h1, if_pos h2, h3, Bool.false_eq_true, if_false]
  · intro h
    unfold contextResolve
    rw [if_pos (climbName_eq_nil_of_noInit h)]
  · intro hne hinit
    have hparts : climbName fs (contextDir fs cwd raw) ≠ [] := by
      unfold climbName
      cases hL : (contextDir fs cwd raw).length with
      | zero => exact absurd (List.length_eq_zero.mp hL) hne
      | succ m =>
        simp only [climbAux, dif_neg hne, hinit, if_true]
        simp
    unfold contextResolve
    rw [if_neg hparts]
  · intro k hk h2 h3
    exact climbAux_char fs _ _ k (Nat.le_refl _) hk h2 h3

/-- Filesystem of the C8 witness: `pkg` and `pkg/sub` are context
    directories (each has an `__init__.py`); `other` is a plain directory
    without the marker. -/
def pkgFs : Fs :=
  ⟨fun d => decide (d = ["pkg"]) || decide (d = ["pkg", "sub"]), fun _ => false⟩

/-- Claim C8 witness: a path inside `pkg/sub/__pv_it` resolves to the
    context `pkg.sub`; a path ending in `_proofs_` resolves to its parent
    context; a directory without `__init__.py` fails structurally. -/
theorem context_path_resolution_witness :
    contextDir pkgFs [] ⟨true, ["pkg", "sub", "__pv_it", "x"]⟩ =
      ["pkg", "sub"] ∧
    contextDir pkgFs [] ⟨true, ["pkg", "sub", "_proofs_"]⟩ = ["pkg", "sub"] ∧
    contextResolve pkgFs [] ⟨true, ["other"]⟩ = .error .structural ∧
    contextResolve pkgFs [] ⟨true, ["pkg", "sub", "__pv_it", "x"]⟩ =
      .ok ⟨"pkg.sub", ["pkg", "sub"]⟩ ∧
    climbName pkgFs ["pkg", "sub"] = ["pkg", "sub"] := by
  have h1 := context_path_resolution pkgFs []
    ⟨true, ["pkg", "sub", "__pv_it", "x"]⟩
  have h2 := context_path_resolution pkgFs [] ⟨true, ["pkg", "sub", "_proofs_"]⟩
  have h3 := context_path_resolution pkgFs [] ⟨true, ["other"]⟩
  refine ⟨?_, ?_, ?_, ?_, ?_⟩
  · exact h1.1 ⟨by decide, by decide, by decide⟩
  · exact h2.2.1 ⟨by decide, by decide, by decide⟩
  · exact h3.2.2.1 (by decide)
  · have := h1.2.2.2.1 (by decide) (by decide)
    simpa using this
  · have := h1.2.2.2.2 0 (by decide) (by decide) (Or.inl rfl)
    simpa using this

/-- Mutual-dependency tracking state: the process-global
    `CommonExpressions.context_names_of_referenced_commons` class attribute
    (one set shared by every context; order of first insertion kept) and the
    per-context committed records persisted by storage. -/
structure DepState where
  referencedCommons : List String
  records : List (String × List String)
  deriving DecidableEq, Repr

/-- Embeds `CommonExpressions.__init__`'s effect: constructing (importing) a
    context's `_common_` module adds that context's name to the CLASS-level,
    process-global `context_names_of_referenced_commons` set.  `context.py`
    contains no operation that ever clears this set. -/
def mkCommonExpressions (st : DepState) (ctxName : String) : DepState :=
  { st with referencedCommons :=
      if ctxName ∈ st.referencedCommons then st.referencedCommons
      else st.referencedCommons ++ [ctxName] }

/-- Embeds `Context.recordReferencedContexts`: passes the entire global set
    to storage.  `Storage.recordReferencedContexts` is absent from src;
    Modelled from the spec: `commitBuild` "persists the accumulated set as
    the context's Mutual Dependency Record, replacing any previous record". -/
def recordReferencedContexts (st : DepState) (ctxName : String) : DepState :=
  { st with records := aupdate st.records ctxName st.referencedCommons }

/-- Claim C4 counterexample: build of context A imports B's commons (adding
    "B" to the global set), then A commits its record; build of B imports A's
    commons, then B commits.  B's committed record is `["B", "A"]` — it
    contains "B", B's own name, which entered the set during A's build —
    refuting the claim that a build starts by clearing a per-context set and
    commits a record free of other builds' names and of the context's own
    name. -/
theorem referenced_contexts_global_counterexample :
    alookup (recordReferencedContexts
      (mkCommonExpressions
        (recordReferencedContexts (mkCommonExpressions ⟨[], []⟩ "B") "A")
        "A") "B").records "B" = some ["B", "A"] ∧
    "B" ∈ (["B", "A"] : List String) := ⟨rfl, by decide⟩

/-- Claim C4 (amended): the referenced-commons set is a single process-global
    set shared by all contexts and never cleared — constructing a
    `CommonExpressions` module only grows it — and committing context C's
    record persists the entire current global set (which may therefore
    include names accumulated during other contexts' builds and C's own
    name). -/
theorem referenced_contexts_record_is_global (st : DepState) (c n : String) :
    alookup (recordReferencedContexts st c).records c =
      some st.referencedCommons ∧
    (∀ x, x ∈ st.referencedCommons →
      x ∈ (mkCommonExpressions st n).referencedCommons) ∧
    n ∈ (mkCommonExpressions st n).referencedCommons ∧
    (recordReferencedContexts st c).referencedCommons =
      st.referencedCommons := by
  refine ⟨alookup_aupdate_self _ _ _, ?_, ?_, rfl⟩
  · intro x hx
    unfold mkCommonExpressions
    by_cases hn : n ∈ st.referencedCommons
    · simpa [hn] using hx
    · simp only [hn, if_false]
      exact List.mem_append.mpr (Or.inl hx)
  · unfold mkCommonExpressions
    by_cases hn : n ∈ st.referencedCommons
    · simp [hn]
    · simp only [hn, if_false]
      exact List.mem_append.mpr (Or.inr (List.mem_singleton.mpr rfl))

/-- Claim C4 witness for the amended theorem at a concrete state. -/
theorem referenced_contexts_record_is_global_witness :
    alookup (recordReferencedContexts ⟨["B"], []⟩ "A").records "A" =
      some ["B"] ∧
    "B" ∈ (mkCommonExpressions ⟨["B"], []⟩ "A").referencedCommons ∧
    "A" ∈ (mkCommonExpressions ⟨["B"], []⟩ "A").referencedCommons := by
  have h := referenced_contexts_record_is_global ⟨["B"], []⟩ "A" "A"
  exact ⟨h.1, h.2.1 "B" (by decide), h.2.2.1⟩

/-- Modelled from the spec (Storage.mutualReferencedContexts absent from
    src): `checkMutual` reads the context's own committed record and, for
    each other context name in it whose record is resolvable, returns the
    first whose record contains this context's name; `none` when no direct
    two-way cycle exists.  Longer cycles are intentionally not detected. -/
def checkMutual (records : List (String × List String)) (ctxName : String) :
    Option String :=
  match alookup records ctxName with
  | none => none
  | some own =>
    own.find? (fun other =>
      match alookup records other with
      | some r => decide (ctxName ∈ r)
      | none => false)

theorem find?_eq_some_of {l : List String} {p : String → Bool} {b : String}
    (hb : b ∈ l) (hpb : p b = true)
    (huniq : ∀ x ∈ l, p x = true → x = b) : l.find? p = some b := by
  induction l with
  | nil => cases hb
  | cons x t ih =>
    by_cases hx : p x = true
    · rw [List.find?_cons_of_pos _ hx]
      rw [huniq x (List.mem_cons_self _ _) hx]
    · rw [List.find?_cons_of_neg _ (by simpa using hx)]
      rcases List.mem_cons.mp hb with he | he
      · rw [← he] at hx
        exact absurd hpb hx
      · exact ih he (fun x hx2 hp2 => huniq x (List.mem_cons_of_mem _ hx2) hp2)

theorem find?_eq_none_of {l : List String} {p : String → Bool}
    (h : ∀ x ∈ l, p x = false) : l.find? p = none := by
  induction l with
  | nil => rfl
  | cons x t ih =>
    rw [List.find?_cons_of_neg _ (by simp [h x (List.mem_cons_self _ _)])]
    exact ih (fun x hx => h x (List.mem_cons_of_mem _ hx))

/-- Claim C5: two-cycle detection.  If A's committed record contains B, B's
    contains A (and B is A's only such two-way partner), `checkMutual A`
    returns `some B`; symmetrically `checkMutual B` returns `some A`; and if
    no name in A's record has a resolvable record containing A,
    `checkMutual A` returns `none`. -/
theorem mutual_two_cycle_detection (records : List (String × List String))
    (A B : String) (ra rb : List String)
    (hA : alookup records A = some ra) (hB : alookup records B = some rb) :
    (B ∈ ra → A ∈ rb →
      (∀ C, C ∈ ra → C ≠ B → ∀ rc, alookup records C = some rc → A ∉ rc) →
      checkMutual records A = some B) ∧
    (A ∈ rb → B ∈ ra →
      (∀ C, C ∈ rb → C ≠ A → ∀ rc, alookup records C = some rc → B ∉ rc) →
      checkMutual records B = some A) ∧
    ((∀ C rc, C ∈ ra → alookup records C = some rc → A ∉ rc) →
      checkMutual records A = none) := by
  refine ⟨?_, ?_, ?_⟩
  · intro hBa hAb huniq
    unfold checkMutual
    rw [hA]
    apply find?_eq_some_of hBa
    · rw [hB]
      simpa using hAb
    · intro x hx hpx
      by_contra hne
      cases hrx : alookup records x with
      | none => rw [hrx] at hpx; cases hpx
      | some rx =>
        rw [hrx] at hpx
        exact huniq x hx hne rx hrx (by simpa using hpx)
  · intro hAb hBa huniq
    unfold checkMutual
    rw [hB]
    apply find?_eq_some_of hAb
    · rw [hA]
      simpa using hBa
    · intro x hx hpx
      by_contra hne
      cases hrx : alookup records x with
      | none => rw [hrx] at hpx; cases hpx
      | some rx =>
        rw [hrx] at hpx
        exact huniq x hx hne rx hrx (by simpa using hpx)
  · intro hnone
    unfold checkMutual
    rw [hA]
    apply find?_eq_none_of
    intro x hx
    cases hrx : alookup records x with
    | none => rfl
    | some rx =>
      simpa using hnone x rx hx hrx

/-- Claim C5 witness: in the record table where A and B reference each other
    and C references only D (no back-reference), `checkMutual` returns
    `some "B"` for A, `some "A"` for B, and `none` for C. -/
theorem mutual_two_cycle_detection_witness :
    checkMutual [("A", ["B"]), ("B", ["A"]), ("C", ["D"]), ("D", [])] "A" =
      some "B" ∧
    checkMutual [("A", ["B"]), ("B", ["A"]), ("C", ["D"]), ("D", [])] "B" =
      some "A" ∧
    checkMutual [("A", ["B"]), ("B", ["A"]), ("C", ["D"]), ("D", [])] "C" =
      none := by
  have hAB := mutual_two_cycle_detection
    [("A", ["B"]), ("B", ["A"]), ("C", ["D"]), ("D", [])] "A" "B" ["B"] ["A"]
    rfl rfl
  have hC := mutual_two_cycle_detection
    [("A", ["B"]), ("B", ["A"]), ("C", ["D"]), ("D", [])] "C" "D" ["D"] []
    rfl rfl
  refine ⟨?_, ?_, ?_⟩
  · exact hAB.1 (by decide) (by decide)
      (by intro C hC1 hC2 rc hrc; simp at hC1; rw [hC1] at hC2; cases hC2 rfl)
  · exact hAB.2.1 (by decide) (by decide)
      (by intro C hC1 hC2 rc hrc; simp at hC1; rw [hC1] at hC2; cases hC2 rfl)
  · apply hC.2.2
    intro C rc hC1 hrc
    simp only [List.mem_singleton] at hC1
    rw [hC1] at hrc
    have : rc = [] := by
      have h : (some [] : Option (List String)) = some rc := by
        rw [← hrc]; rfl
      cases h
      rfl
    rw [this]
    exact List.not_mem_nil _

/-- The process-wide `Context.default` attribute (the name of the default
    context, or none), the only global touched by `getCommonExpr`. -/
structure DefaultState where
  default : Option String
  deriving DecidableEq, Repr

/-- Embeds `Context.getCommonExpr(name)`: save `Context.default`, set it to
    this context, compute the expression — Python `KeyError` when the name is
    absent from the loaded `_common_expr_ids` map, and the deserializer
    (`storage.makeExpression`, out of scope, passed as the `make` parameter)
    may itself fail — and restore the saved default in a `finally` block, so
    the restore happens on success and on every exception path alike.  The
    lazy load of `_common_expr_ids` precedes the default swap and is passed
    in as `commonIds`; the `Expression.contexts` bookkeeping after the
    restore does not touch the default and is not modelled. -/
def getCommonExpr (make : String → Except CtxErr String)
    (commonIds : List (String × String)) (st : DefaultState)
    (self : String) (name : String) : DefaultState × Except CtxErr String :=
  let prev := st.default
  let st1 : DefaultState := { st with default := some self }
  let result : Except CtxErr String :=
    match alookup commonIds name with
    | none => .error .keyError
    | some i => make i
  let st2 : DefaultState := { st1 with default := prev }
  (st2, result)

/-- Claim C10: `getCommonExpr` leaves the process-wide default context
    unchanged for every outcome — the name may be absent (`KeyError`) or the
    deserializer may fail, and the error propagates to the caller, yet the
    previous `Context.default` is always restored by the `finally` block. -/
theorem getCommonExpr_restores_default (make : String → Except CtxErr String)
    (commonIds : List (String × String)) (st : DefaultState)
    (self name : String) :
    (getCommonExpr make commonIds st self name).1.default = st.default ∧
    (alookup commonIds name = none →
      (getCommonExpr make commonIds st self name).2 = .error .keyError) ∧
    (∀ i e, alookup commonIds name = some i → make i = .error e →
      (getCommonExpr make commonIds st self name).2 = .error e) := by
  refine ⟨rfl, ?_, ?_⟩
  · intro h
    simp [getCommonExpr, h]
  · intro i e hi he
    simp [getCommonExpr, hi, he]

/-- Claim C10 witness: a failing deserializer propagates its error while the
    default context is restored to its previous value. -/
theorem getCommonExpr_restores_default_witness :
    (getCommonExpr (fun _ => .error .corrupt) [("one", "h1")] ⟨some "ctx0"⟩
      "ctxC" "one").1.default = some "ctx0" ∧
    (getCommonExpr (fun _ => .error .corrupt) [("one", "h1")] ⟨some "ctx0"⟩
      "ctxC" "one").2 = .error .corrupt := by
  have h := getCommonExpr_restores_default (fun _ => .error .corrupt)
    [("one", "h1")] ⟨some "ctx0"⟩ "ctxC" "one"
  exact ⟨h.1, h.2.2 "h1" .corrupt rfl rfl⟩

end ProveIt
